import Mathlib

/-!
Verification development for the C file-management backend (`backend.c`).

The backend is shallowly embedded: each C function that the checked claims
mention is translated into an executable Lean definition over explicit
filesystem state.  Machine-level aspects are modelled as follows:

* a directory's contents are an association list `Entries` of names to nodes;
* `stat` failure, `remove` failure and similar per-path syscall failures are
  injected through explicit `Option`/oracle parameters;
* `GList*` results are Lean lists, with the crucial point kept faithful that
  the C `NULL` return on `opendir` failure is the very same value as the empty
  list;
* `printf`-style `%.1f` formatting of `n / 1024.0` is modelled exactly: the
  double holds the quotient exactly (the divisor is a power of two), and the
  decimal string is the correctly rounded one-decimal value, ties to even.
-/

namespace FMS

/-! ## Size formatting (`format_size`, backend.c lines 34-41) -/

/-- Round `num / den` to the nearest integer, ties to even.  This is the value
printed by `%.1f` applied to the exact double `num / den` when `den` is a
power of two (the division is then exact in binary floating point and the
printed digit is the correctly rounded decimal). -/
def rhe (num den : Nat) : Nat :=
  if 2 * (num % den) < den then num / den
  else if den < 2 * (num % den) then num / den + 1
  else if (num / den) % 2 = 0 then num / den else num / den + 1

/-- Render a number of tenths as a one-decimal string, e.g. `20 ↦ "2.0"`. -/
def tenths (t : Nat) : String :=
  toString (t / 10) ++ "." ++ toString (t % 10)

/-- Embedding of `format_size` (backend.c): bytes below 1024, one-decimal KB
below 1024², otherwise one-decimal MB. -/
def format_size (size : Nat) : String :=
  if size < 1024 then toString size ++ " B"
  else if size < 1024 * 1024 then tenths (rhe (10 * size) 1024) ++ " KB"
  else tenths (rhe (10 * size) (1024 * 1024)) ++ " MB"

/-! ## Directory listing (`get_directory_contents`, backend.c lines 69-120) -/

/-- Result of a successful `stat` call, as consumed by the listing code.  The
`strftime` and `strmode` renderings of the timestamp and mode are carried as
the strings they produce. -/
structure StatInfo where
  isDir : Bool
  size : Nat
  mtimeStr : String
  modeStr : String
deriving Repr, DecidableEq

/-- One `readdir` result for a directory, together with the outcome of the
`stat` call on the entry's full path (`none` means `stat` failed). -/
structure RawEntry where
  name : String
  stat : Option StatInfo
deriving Repr, DecidableEq

/-- Embedding of the C `FileInfo` struct.  `g_new0` zero-initialises it, so
before the `stat` branch runs every pointer field is `NULL` (`none` here) and
`is_dir` is false. -/
structure FileInfo where
  name : String
  is_dir : Bool
  type : Option String
  size_formatted : Option String
  modified : Option String
  permissions : Option String
deriving Repr, DecidableEq

/-- Build the `FileInfo` for one entry, following the loop body of
`get_directory_contents`: the struct is zero-initialised, the name is always
set, and the metadata fields are filled only when `stat` succeeds.  Note that
the C code appends the struct to the result list in both cases. -/
def mkFileInfo (e : RawEntry) : FileInfo :=
  match e.stat with
  | some st =>
      { name := e.name
        is_dir := st.isDir
        type := some (if st.isDir then "Directory" else "File")
        size_formatted := some (if st.isDir then "" else format_size st.size)
        modified := some st.mtimeStr
        permissions := some st.modeStr }
  | none =>
      { name := e.name, is_dir := false, type := none
        size_formatted := none, modified := none, permissions := none }

/-- Embedding of `get_directory_contents`.  The argument is the result of
`opendir` plus the per-entry `stat` outcomes: `none` means `opendir` failed.
Faithful detail: in C the function returns `GList*`, and the `NULL` returned
on open failure is the same value as the empty list, so the embedding returns
a plain list with `[]` standing for `NULL`. -/
def get_directory_contents (d : Option (List RawEntry)) : List FileInfo :=
  match d with
  | none => []
  | some es =>
      (es.filter (fun e => e.name ≠ "." && e.name ≠ "..")).map mkFileInfo

/-! ## Filesystem trees for create / copy (`backend.c` lines 142-259) -/

/-- A filesystem node: a regular file with its byte content, or a directory
with a list of named children (association order is `readdir` order). -/
inductive FsNode where
  | file (content : List Nat)
  | dir (children : List (String × FsNode))
deriving Repr

/-- Contents of one directory: names paired with nodes. -/
abbrev Entries := List (String × FsNode)

/-- Look a name up in a directory. -/
def lookupE : Entries → String → Option FsNode
  | [], _ => none
  | (m, w) :: rest, n => if m = n then some w else lookupE rest n

/-- Install a binding in a directory: replace an existing entry of that name,
otherwise append at the end. -/
def insertE : Entries → String → FsNode → Entries
  | [], n, v => [(n, v)]
  | (m, w) :: rest, n, v =>
      if m = n then (n, v) :: rest else (m, w) :: insertE rest n v

/-- Embedding of `create_directory_item`: `mkdir` fails with `EEXIST` when the
name is already present, and then leaves the directory untouched. -/
def create_directory_item (d : Entries) (name : String) : Bool × Entries :=
  match lookupE d name with
  | some _ => (false, d)
  | none => (true, insertE d name (.dir []))

/-- Embedding of `create_file_item`: `open` with `O_CREAT | O_EXCL` fails when
the name is already present (whatever kind of entry it is), and then leaves
the directory untouched. -/
def create_file_item (d : Entries) (name : String) : Bool × Entries :=
  match lookupE d name with
  | some _ => (false, d)
  | none => (true, insertE d name (.file []))

/-- Embedding of `copy_file_content` writing into directory `dest` under name
`base`: `open(dst, O_WRONLY | O_CREAT | O_TRUNC)` fails if an entry of that
name exists and is a directory (`EISDIR`), otherwise the destination file is
created or truncated and the source bytes are transferred. -/
def copy_file_content (content : List Nat) (dest : Entries) (base : String) :
    Bool × Entries :=
  match lookupE dest base with
  | some (.dir _) => (false, dest)
  | _ => (true, insertE dest base (.file content))

mutual

/-- Aggregate result of `copy_item` when the destination path of the current
directory is occupied by a regular file, so that every path beneath it is
invalid: every leaf file copy fails (`open` yields `ENOTDIR`), every `mkdir`
fails and is ignored, and the per-directory result is still the conjunction
of the children's results — so a subtree containing no file reports true. -/
def copyBroken : FsNode → Bool
  | .file _ => false
  | .dir cs => copyBrokenChildren cs

/-- List form of `copyBroken`: the C loop keeps iterating the siblings. -/
def copyBrokenChildren : List (String × FsNode) → Bool
  | [] => true
  | (_, c) :: rest => copyBroken c && copyBrokenChildren rest

/-- Embedding of `copy_item` copying source node `src` (whose base name is
`base`) into the destination directory `dest`, returning the C result and the
updated destination directory.  Faithful details from backend.c lines
232-259: the return value of `mkdir(dest_path, st.st_mode)` is ignored; when
the destination name is already a directory the children are merged into it;
when it is a regular file the recursion proceeds against the invalid path
(`copyBroken`); a failing child sets `result = FALSE` but the loop continues
with the remaining siblings. -/
def copy_item : String → FsNode → Entries → Bool × Entries
  | base, .file c, dest => copy_file_content c dest base
  | base, .dir cs, dest =>
      let dest1 :=
        match lookupE dest base with
        | none => insertE dest base (.dir [])
        | some _ => dest
      match lookupE dest1 base with
      | some (.dir sub) =>
          match copyChildren cs sub with
          | (ok, sub2, _) => (ok, insertE dest1 base (.dir sub2))
      | _ => (copyBrokenChildren cs, dest1)

/-- The `while (readdir)` loop of `copy_item`: copy each child in order into
the destination directory, recording for each child its name and whether its
recursive copy succeeded; the aggregate result is the conjunction but the
loop never stops early. -/
def copyChildren :
    List (String × FsNode) → Entries → Bool × Entries × List (String × Bool)
  | [], dest => (true, dest, [])
  | (n, c) :: rest, dest =>
      match copy_item n c dest with
      | (ok1, dest1) =>
          match copyChildren rest dest1 with
          | (ok2, dest2, tr) => (ok1 && ok2, dest2, (n, ok1) :: tr)

end

mutual

/-- Well-formedness of a source tree: in every directory the child names are
distinct, as `readdir` guarantees for a real directory. -/
def wfNode : FsNode → Prop
  | .file _ => True
  | .dir cs => (cs.map Prod.fst).Nodup ∧ wfChildren cs

/-- Well-formedness of a list of children. -/
def wfChildren : List (String × FsNode) → Prop
  | [] => True
  | (_, c) :: rest => wfNode c ∧ wfChildren rest

end

/-! ## Recursive deletion (`unlink_cb` / `delete_item`, backend.c 183-196) -/

/-- Filesystem node as seen by `nftw` with `FTW_PHYS`: a regular file, a
symbolic link (carrying the node its target path points to, which lives
elsewhere in the filesystem), or a directory of named children. -/
inductive DNode where
  | file
  | symlink (target : DNode)
  | dir (children : List (String × DNode))
deriving Repr

/-- Path of a child inside a directory, as the walk builds it. -/
def childPath (p n : String) : String := p ++ "/" ++ n

mutual

/-- Embedding of `nftw(path, unlink_cb, 64, FTW_DEPTH | FTW_PHYS)` on the
node at path `p`.  `fails q` says whether `remove(q)` fails.  Returns whether
the walk completed with every `remove` succeeding, together with the ordered
list of paths on which `remove` was invoked.  Faithful details: `FTW_DEPTH`
reports children before their directory; `FTW_PHYS` does not follow symbolic
links, so a link contributes only its own path and its target is never
visited; when `unlink_cb` returns nonzero (a failing `remove`) `nftw` stops
the walk immediately and returns that value. -/
def nftwDel (fails : String → Bool) (p : String) : DNode → Bool × List String
  | .file => (!(fails p), [p])
  | .symlink _ => (!(fails p), [p])
  | .dir cs =>
      match nftwDelChildren fails p cs with
      | (true, tr) => (!(fails p), tr ++ [p])
      | (false, tr) => (false, tr)

/-- Walk the children of the directory at path `p` in order, stopping at the
first failure as `nftw` does. -/
def nftwDelChildren (fails : String → Bool) (p : String) :
    List (String × DNode) → Bool × List String
  | [] => (true, [])
  | (n, c) :: rest =>
      match nftwDel fails (childPath p n) c with
      | (true, tr) =>
          match nftwDelChildren fails p rest with
          | (ok2, tr2) => (ok2, tr ++ tr2)
      | (false, tr) => (false, tr)

end

/-- Embedding of `delete_item`: success iff the `nftw` walk returns 0. -/
def delete_item (fails : String → Bool) (p : String) (t : DNode) : Bool :=
  (nftwDel fails p t).1

mutual

/-- Depth-first post-order listing of the paths of a tree rooted at `p`:
every directory is listed after all of its descendants; a symbolic link is
listed as itself only, its target is not entered. -/
def postOrder (p : String) : DNode → List String
  | .file => [p]
  | .symlink _ => [p]
  | .dir cs => postOrderChildren p cs ++ [p]

/-- Post-order listing of a directory's children in order. -/
def postOrderChildren (p : String) : List (String × DNode) → List String
  | [] => []
  | (n, c) :: rest => postOrder (childPath p n) c ++ postOrderChildren p rest

end

/-- Truncate a list at the first element on which `f` holds, keeping that
element: the prefix of removal attempts an aborting walk performs. -/
def stopAtFirstFail (f : String → Bool) : List String → List String
  | [] => []
  | q :: rest => if f q then [q] else q :: stopAtFirstFail f rest

/-! ## Rename (`rename_item`, backend.c 169-177) -/

/-- Normalise a path given as components, resolving `.` and `..` the way the
kernel resolves the path string passed to `rename(2)`. -/
def resolvePath (comps : List String) : List String :=
  comps.foldl
    (fun acc c =>
      if c = "." then acc
      else if c = ".." then acc.dropLast
      else acc ++ [c]) []

/-- Embedding of `rename_item` at the level of path components: the old path
is split into components (`old`), `g_path_get_dirname` drops the last one,
`g_build_filename` appends the components `newComps` of the `new_name` string
(a plain name contributes one component; a name containing `/` or equal to
`..` contributes more or climbs), and the kernel resolves the result.  The
returned value is the resolved component list of the path the entry is
renamed to. -/
def rename_item (old : List String) (newComps : List String) : List String :=
  resolvePath (old.dropLast ++ newComps)

/-! ## Archiving (`add_to_zip_recursive` / `zip_item`, backend.c 277-329) -/

mutual

/-- Embedding of the body of `add_to_zip_recursive` for one entry named `n`:
`full_fs_path` is built from the filesystem-side path and `full_zip_path`
from the archive-side path; a directory contributes the entry
`full_zip_path ++ "/"` (libzip's `zip_dir_add` stores a trailing slash) and
recurses with both paths extended, a file contributes `full_zip_path`.  The
returned value is the list of archive entry names produced, in order. -/
def add_to_zip_node (fsPath zipParent n : String) : FsNode → List String
  | .file _ => [zipParent ++ n]
  | .dir cs =>
      (zipParent ++ n ++ "/") ::
        add_to_zip_recursive (childPath fsPath n) (zipParent ++ n ++ "/") cs

/-- Embedding of the `while (readdir)` loop of `add_to_zip_recursive` over
the children of the directory at filesystem path `fsPath`, archive-internal
parent path `zipParent`. -/
def add_to_zip_recursive (fsPath zipParent : String) :
    List (String × FsNode) → List String
  | [] => []
  | (n, c) :: rest =>
      add_to_zip_node fsPath zipParent n c ++
        add_to_zip_recursive fsPath zipParent rest

end

/-- Embedding of `zip_item` archiving the source tree `src` whose filesystem
path is `srcPath` and whose base name is `base`: a directory source adds the
entry `base ++ "/"` and then the recursive walk with archive parent
`base ++ "/"`; a file source adds the single entry `base`.  The returned
value is the list of archive entry names. -/
def zip_item (srcPath base : String) (src : FsNode) : List String :=
  match src with
  | .dir cs => (base ++ "/") :: add_to_zip_recursive srcPath (base ++ "/") cs
  | .file _ => [base]

mutual

/-- Specification-side view of the archive names for the node named `n`: its
own relative path (directories with a trailing slash) followed by the
relative paths of everything beneath it. -/
def relEntries (n : String) : FsNode → List String
  | .file _ => [n]
  | .dir cs =>
      (n ++ "/") :: (relEntriesChildren cs).map (fun r => n ++ "/" ++ r)

/-- Relative paths contributed by a list of children, in order. -/
def relEntriesChildren : List (String × FsNode) → List String
  | [] => []
  | (n, c) :: rest => relEntries n c ++ relEntriesChildren rest

end

/-! ## Helper lemmas -/

/-- The rounded value produced by `rhe` is within half a unit of the true
quotient: `|den * rhe num den - num| ≤ den / 2`, stated two-sidedly in `Nat`. -/
theorem rhe_close (num den : Nat) (hden : 0 < den) :
    2 * (den * rhe num den) ≤ 2 * num + den ∧
      2 * num ≤ 2 * (den * rhe num den) + den := by
  have h : den * (num / den) + num % den = num := Nat.div_add_mod num den
  have hr : num % den < den := Nat.mod_lt _ hden
  unfold rhe
  generalize hq : num / den = q at h ⊢
  generalize hrr : num % den = r at h hr ⊢
  split
  · generalize hM : den * q = M at h ⊢
    omega
  · split
    · have hM2 : den * (q + 1) = den * q + den := by ring
      rw [hM2]
      generalize hM : den * q = M at h ⊢
      omega
    · split
      · generalize hM : den * q = M at h ⊢
        omega
      · have hM2 : den * (q + 1) = den * q + den := by ring
        rw [hM2]
        generalize hM : den * q = M at h ⊢
        omega

theorem lookupE_insertE_self (d : Entries) (n : String) (v : FsNode) :
    lookupE (insertE d n v) n = some v := by
  induction d with
  | nil => simp [insertE, lookupE]
  | cons hd tl ih =>
      obtain ⟨m, w⟩ := hd
      by_cases h : m = n
      · simp [insertE, lookupE, h]
      · simp [insertE, lookupE, h, ih]

theorem insertE_of_lookup_none (d : Entries) (n : String) (v : FsNode)
    (h : lookupE d n = none) : insertE d n v = d ++ [(n, v)] := by
  induction d with
  | nil => simp [insertE]
  | cons hd tl ih =>
      obtain ⟨m, w⟩ := hd
      by_cases hm : m = n
      · simp [lookupE, hm] at h
      · simp only [lookupE, if_neg hm] at h
        simp [insertE, hm, ih h]

theorem lookupE_append_single_ne (d : Entries) (m n : String) (v : FsNode)
    (h : n ≠ m) : lookupE (d ++ [(n, v)]) m = lookupE d m := by
  induction d with
  | nil => simp [lookupE, h]
  | cons hd tl ih =>
      obtain ⟨a, w⟩ := hd
      by_cases ha : a = m
      · simp [lookupE, ha]
      · simp [lookupE, ha, ih]

theorem insertE_append_self (d : Entries) (n : String) (v w : FsNode)
    (h : lookupE d n = none) : insertE (d ++ [(n, v)]) n w = d ++ [(n, w)] := by
  induction d with
  | nil => simp [insertE]
  | cons hd tl ih =>
      obtain ⟨m, x⟩ := hd
      by_cases hm : m = n
      · simp [lookupE, hm] at h
      · simp only [lookupE, if_neg hm] at h
        simp [insertE, hm, ih h]

theorem stopAtFirstFail_all_pass (f : String → Bool) (l : List String)
    (h : ∀ q ∈ l, f q = false) : stopAtFirstFail f l = l := by
  induction l with
  | nil => rfl
  | cons a tl ih =>
      have ha : f a = false := h a (by simp)
      simp [stopAtFirstFail, ha]
      exact ih fun q hq => h q (by simp [hq])

theorem stopAtFirstFail_append_pass (f : String → Bool) (l₁ l₂ : List String)
    (h : ∀ q ∈ l₁, f q = false) :
    stopAtFirstFail f (l₁ ++ l₂) = l₁ ++ stopAtFirstFail f l₂ := by
  induction l₁ with
  | nil => rfl
  | cons a tl ih =>
      have ha : f a = false := h a (by simp)
      simp [stopAtFirstFail, ha]
      exact ih fun q hq => h q (by simp [hq])

theorem stopAtFirstFail_append_fail (f : String → Bool) (l₁ l₂ : List String)
    (h : ∃ q ∈ l₁, f q = true) :
    stopAtFirstFail f (l₁ ++ l₂) = stopAtFirstFail f l₁ := by
  induction l₁ with
  | nil => simp at h
  | cons a tl ih =>
      by_cases ha : f a = true
      · simp [stopAtFirstFail, ha]
      · have ha' : f a = false := by
          cases hfa : f a
          · rfl
          · exact absurd hfa ha
        simp only [List.cons_append, stopAtFirstFail, ha', if_false,
          Bool.false_eq_true]
        rcases h with ⟨q, hq, hfq⟩
        rcases List.mem_cons.mp hq with rfl | hq'
        · exact absurd hfq ha
        · exact congrArg (List.cons a) (ih ⟨q, hq', hfq⟩)

theorem mem_stopAtFirstFail (f : String → Bool) (l : List String) (q : String)
    (h : q ∈ stopAtFirstFail f l) : q ∈ l := by
  induction l with
  | nil => simp [stopAtFirstFail] at h
  | cons a tl ih =>
      by_cases ha : f a = true
      · simp [stopAtFirstFail, ha] at h
        simp [h]
      · have ha' : f a = false := by
          cases hfa : f a
          · rfl
          · exact absurd hfa ha
        simp [stopAtFirstFail, ha'] at h
        rcases h with rfl | h
        · simp
        · simp [ih h]

mutual

/-- Copying a well-formed source under a name absent from the destination
succeeds and appends an exact copy of the source tree. -/
theorem copy_item_fresh : ∀ (base : String) (src : FsNode) (dest : Entries),
    wfNode src → lookupE dest base = none →
    copy_item base src dest = (true, dest ++ [(base, src)])
  | base, .file c, dest, _, hfresh => by
      simp [copy_item, copy_file_content, hfresh,
        insertE_of_lookup_none dest base _ hfresh]
  | base, .dir cs, dest, hwf, hfresh => by
      have hwf' : (cs.map Prod.fst).Nodup ∧ wfChildren cs := by
        simpa [wfNode] using hwf
      have hstep : insertE dest base (.dir []) = dest ++ [(base, .dir [])] :=
        insertE_of_lookup_none dest base _ hfresh
      have hlook : lookupE (insertE dest base (.dir [])) base = some (.dir []) :=
        lookupE_insertE_self dest base _
      have hch : copyChildren cs [] = (true, [] ++ cs, cs.map fun nc => (nc.1, true)) :=
        copyChildren_fresh cs [] hwf'.2 hwf'.1 (fun n _ => rfl)
      simp only [copy_item, hfresh, hlook, hch]
      rw [hstep, insertE_append_self dest base _ _ hfresh]
      simp

/-- Copying a list of well-formed children with pairwise-distinct names, all
absent from the destination, succeeds for every child and appends them in
order. -/
theorem copyChildren_fresh : ∀ (cs : List (String × FsNode)) (dest : Entries),
    wfChildren cs → (cs.map Prod.fst).Nodup →
    (∀ n ∈ cs.map Prod.fst, lookupE dest n = none) →
    copyChildren cs dest = (true, dest ++ cs, cs.map fun nc => (nc.1, true))
  | [], dest, _, _, _ => by simp [copyChildren]
  | (n, c) :: rest, dest, hwf, hnodup, hfresh => by
      have hwfc : wfNode c ∧ wfChildren rest := by
        simpa [wfChildren] using hwf
      have hnd : n ∉ rest.map Prod.fst ∧ (rest.map Prod.fst).Nodup := by
        simpa using hnodup
      have h1 : copy_item n c dest = (true, dest ++ [(n, c)]) :=
        copy_item_fresh n c dest hwfc.1 (hfresh n (by simp))
      have hmem : ∀ m ∈ rest.map Prod.fst, lookupE (dest ++ [(n, c)]) m = none := by
        intro m hm
        have hne : n ≠ m := fun he => hnd.1 (he ▸ hm)
        rw [lookupE_append_single_ne dest m n c hne]
        exact hfresh m (by simp [hm])
      have h2 : copyChildren rest (dest ++ [(n, c)]) =
          (true, (dest ++ [(n, c)]) ++ rest, rest.map fun nc => (nc.1, true)) :=
        copyChildren_fresh rest (dest ++ [(n, c)]) hwfc.2 hnd.2 hmem
      simp [copyChildren, h1, h2]

end

/-- The recorded child trace of `copyChildren` names every child in order:
the loop never stops early, whatever the individual results are. -/
theorem copyChildren_names (cs : List (String × FsNode)) (dest : Entries) :
    ((copyChildren cs dest).2.2).map Prod.fst = cs.map Prod.fst := by
  induction cs generalizing dest with
  | nil => simp [copyChildren]
  | cons hd tl ih =>
      obtain ⟨n, c⟩ := hd
      rcases h1 : copy_item n c dest with ⟨ok1, dest1⟩
      rcases h2 : copyChildren tl dest1 with ⟨ok2, dest2, tr⟩
      have := ih dest1
      rw [h2] at this
      simp [copyChildren, h1, h2]
      simpa using this

/-- The aggregate result of `copyChildren` is the conjunction of the
individual child results recorded in its trace. -/
theorem copyChildren_result (cs : List (String × FsNode)) (dest : Entries) :
    (copyChildren cs dest).1 =
      (((copyChildren cs dest).2.2).map Prod.snd).all (fun b => b) := by
  induction cs generalizing dest with
  | nil => simp [copyChildren]
  | cons hd tl ih =>
      obtain ⟨n, c⟩ := hd
      rcases h1 : copy_item n c dest with ⟨ok1, dest1⟩
      rcases h2 : copyChildren tl dest1 with ⟨ok2, dest2, tr⟩
      have := ih dest1
      rw [h2] at this
      simp only at this
      simp [copyChildren, h1, h2]
      rw [this]

mutual

/-- Trace and result of the embedded `nftw` deletion walk: the walk attempts
exactly the post-order path sequence truncated at the first failing removal,
and reports success exactly when every removal in the post-order sequence
succeeds. -/
theorem nftwDel_spec : ∀ (f : String → Bool) (p : String) (t : DNode),
    (nftwDel f p t).1 = (postOrder p t).all (fun q => !(f q)) ∧
      (nftwDel f p t).2 = stopAtFirstFail f (postOrder p t)
  | f, p, .file => by
      cases hf : f p <;> simp [nftwDel, postOrder, stopAtFirstFail, hf]
  | f, p, .symlink t => by
      cases hf : f p <;> simp [nftwDel, postOrder, stopAtFirstFail, hf]
  | f, p, .dir cs => by
      obtain ⟨hok, htr⟩ := nftwDelChildren_spec f p cs
      rcases hc : nftwDelChildren f p cs with ⟨okc, trc⟩
      rw [hc] at hok htr
      simp only at hok htr
      cases okc
      · have hex : ∃ q ∈ postOrderChildren p cs, f q = true := by
          rcases List.all_eq_false.mp hok.symm with ⟨q, hq, hfq⟩
          exact ⟨q, hq, by simpa using hfq⟩
        constructor
        · simp [nftwDel, hc, postOrder, List.all_append, ← hok]
        · simp only [nftwDel, hc, postOrder]
          rw [stopAtFirstFail_append_fail f _ [p] hex, htr]
      · have hall : ∀ q ∈ postOrderChildren p cs, f q = false := by
          intro q hq
          have := List.all_eq_true.mp hok.symm q hq
          simpa using this
        have htr' : trc = postOrderChildren p cs := by
          rw [htr, stopAtFirstFail_all_pass f _ hall]
        constructor
        · simp [nftwDel, hc, postOrder, List.all_append, ← hok]
        · simp only [nftwDel, hc, postOrder]
          rw [stopAtFirstFail_append_pass f _ [p] hall, htr']
          cases hf : f p <;> simp [stopAtFirstFail, hf]

/-- Trace and result of the walk over a directory's children. -/
theorem nftwDelChildren_spec : ∀ (f : String → Bool) (p : String)
    (cs : List (String × DNode)),
    (nftwDelChildren f p cs).1 = (postOrderChildren p cs).all (fun q => !(f q)) ∧
      (nftwDelChildren f p cs).2 = stopAtFirstFail f (postOrderChildren p cs)
  | f, p, [] => by simp [nftwDelChildren, postOrderChildren, stopAtFirstFail]
  | f, p, (n, c) :: rest => by
      obtain ⟨hok, htr⟩ := nftwDel_spec f (childPath p n) c
      rcases hc : nftwDel f (childPath p n) c with ⟨ok1, tr1⟩
      rw [hc] at hok htr
      simp only at hok htr
      cases ok1
      · have hex : ∃ q ∈ postOrder (childPath p n) c, f q = true := by
          rcases List.all_eq_false.mp hok.symm with ⟨q, hq, hfq⟩
          exact ⟨q, hq, by simpa using hfq⟩
        constructor
        · simp [nftwDelChildren, hc, postOrderChildren, List.all_append, ← hok]
        · simp only [nftwDelChildren, hc, postOrderChildren]
          rw [stopAtFirstFail_append_fail f _ _ hex, htr]
      · have hall : ∀ q ∈ postOrder (childPath p n) c, f q = false := by
          intro q hq
          have := List.all_eq_true.mp hok.symm q hq
          simpa using this
        have htr' : tr1 = postOrder (childPath p n) c := by
          rw [htr, stopAtFirstFail_all_pass f _ hall]
        obtain ⟨hok2, htr2⟩ := nftwDelChildren_spec f p rest
        rcases hc2 : nftwDelChildren f p rest with ⟨ok2, tr2⟩
        rw [hc2] at hok2 htr2
        simp only at hok2 htr2
        constructor
        · simp [nftwDelChildren, hc, hc2, postOrderChildren, List.all_append,
            ← hok, ← hok2]
        · simp only [nftwDelChildren, hc, hc2, postOrderChildren]
          rw [stopAtFirstFail_append_pass f _ _ hall, htr', htr2]

end

theorem length_childPath (p n : String) :
    (childPath p n).length = p.length + 1 + n.length := by
  have h1 : ("/" : String).length = 1 := rfl
  simp [childPath, String.length_append, h1]

mutual

/-- Every path listed by the post-order walk of the tree at `p` extends `p`
in length. -/
theorem length_le_of_mem_postOrder : ∀ (p : String) (t : DNode) (q : String),
    q ∈ postOrder p t → p.length ≤ q.length
  | p, .file, q, h => by
      simp [postOrder] at h
      simp [h]
  | p, .symlink t, q, h => by
      simp [postOrder] at h
      simp [h]
  | p, .dir cs, q, h => by
      simp only [postOrder, List.mem_append, List.mem_singleton] at h
      rcases h with h | rfl
      · exact le_of_lt (length_lt_of_mem_postOrderChildren p cs q h)
      · exact le_refl _

/-- Every path listed beneath a directory at `p` is strictly longer than `p`,
so the directory's own path never occurs among its children's paths. -/
theorem length_lt_of_mem_postOrderChildren : ∀ (p : String)
    (cs : List (String × DNode)) (q : String),
    q ∈ postOrderChildren p cs → p.length < q.length
  | p, [], q, h => by simp [postOrderChildren] at h
  | p, (n, c) :: rest, q, h => by
      simp only [postOrderChildren, List.mem_append] at h
      rcases h with h | h
      · have h1 := length_le_of_mem_postOrder (childPath p n) c q h
        have h2 := length_childPath p n
        omega
      · exact length_lt_of_mem_postOrderChildren p rest q h

end

/-- Folding the path-resolution step over components that are neither `.` nor
`..` just appends them. -/
theorem resolvePath_go (l acc : List String)
    (h : ∀ c ∈ l, c ≠ "." ∧ c ≠ "..") :
    l.foldl
      (fun acc c =>
        if c = "." then acc
        else if c = ".." then acc.dropLast
        else acc ++ [c]) acc = acc ++ l := by
  induction l generalizing acc with
  | nil => simp
  | cons a tl ih =>
      have ha := h a (by simp)
      simp only [List.foldl_cons, if_neg ha.1, if_neg ha.2]
      rw [ih (acc ++ [a]) (fun c hc => h c (by simp [hc]))]
      simp

/-- Resolving a path whose components are all plain names is the identity. -/
theorem resolvePath_plain (l : List String)
    (h : ∀ c ∈ l, c ≠ "." ∧ c ≠ "..") : resolvePath l = l := by
  unfold resolvePath
  rw [resolvePath_go l [] h]
  simp

mutual

/-- The archive names emitted for one node are its relative paths prefixed
with the archive-internal parent path; the filesystem-side path plays no part
in the names. -/
theorem add_to_zip_node_eq : ∀ (fsPath zp n : String) (c : FsNode),
    add_to_zip_node fsPath zp n c = (relEntries n c).map (fun r => zp ++ r)
  | _, zp, n, .file c => by simp [add_to_zip_node, relEntries]
  | fs, zp, n, .dir cs => by
      rw [add_to_zip_node, relEntries]
      rw [add_to_zip_recursive_eq (childPath fs n) (zp ++ n ++ "/") cs]
      simp [Function.comp, String.append_assoc]

/-- The archive names emitted for a list of children are their relative paths
prefixed with the archive-internal parent path. -/
theorem add_to_zip_recursive_eq : ∀ (fs zp : String)
    (cs : List (String × FsNode)),
    add_to_zip_recursive fs zp cs = (relEntriesChildren cs).map (fun r => zp ++ r)
  | _, _, [] => by simp [add_to_zip_recursive, relEntriesChildren]
  | fs, zp, (n, c) :: rest => by
      rw [add_to_zip_recursive, relEntriesChildren]
      rw [add_to_zip_node_eq fs zp n c, add_to_zip_recursive_eq fs zp rest]
      simp

end

/-! ## Claim C1 -/

/-- Claim C1 as stated is false on the code: in `get_directory_contents` the
`g_list_append` sits outside the `if (stat(...) == 0)` block (backend.c line
114), so a child whose `stat` fails is NOT omitted — here a directory with the
single child `x` whose metadata read fails still lists `x`, with all metadata
fields left at their zero-initialised values. -/
theorem C1_stat_failure_child_not_omitted :
    get_directory_contents (some [{ name := "x", stat := none }]) =
      [{ name := "x", is_dir := false, type := none, size_formatted := none,
         modified := none, permissions := none }] := rfl

/-- Claim C1 (amended): when the metadata read (`stat`) fails for a direct
child, that child is NOT omitted from the listing: it still appears, with its
name set and every metadata field left unset (`is_dir` false, type, size and
the rest `NULL`), and the listing of the remaining children still succeeds. -/
theorem C1_stat_failure_child_included (es : List RawEntry) (e : RawEntry)
    (hmem : e ∈ es) (h1 : e.name ≠ ".") (h2 : e.name ≠ "..")
    (hstat : e.stat = none) :
    mkFileInfo e ∈ get_directory_contents (some es) ∧
      (mkFileInfo e).name = e.name ∧ (mkFileInfo e).is_dir = false ∧
      (mkFileInfo e).type = none ∧ (mkFileInfo e).size_formatted = none := by
  refine ⟨?_, ?_, ?_, ?_, ?_⟩
  · simp only [get_directory_contents]
    exact List.mem_map.mpr ⟨e, List.mem_filter.mpr ⟨hmem, by simp [h1, h2]⟩, rfl⟩
  · cases hs : e.stat <;> simp [mkFileInfo, hs]
  · simp [mkFileInfo, hstat]
  · simp [mkFileInfo, hstat]
  · simp [mkFileInfo, hstat]

/-- Witness for C1 (amended) at a concrete one-entry directory. -/
theorem C1_witness :
    mkFileInfo { name := "x", stat := none } ∈
        get_directory_contents (some [{ name := "x", stat := none }]) ∧
      (mkFileInfo { name := "x", stat := none }).name = "x" ∧
      (mkFileInfo { name := "x", stat := none }).is_dir = false ∧
      (mkFileInfo { name := "x", stat := none }).type = none ∧
      (mkFileInfo { name := "x", stat := none }).size_formatted = none :=
  C1_stat_failure_child_included [{ name := "x", stat := none }]
    { name := "x", stat := none } (by simp) (by decide) (by decide) rfl

/-! ## Claim C9 -/

/-- Claim C9 as stated is false on the code: `get_directory_contents` returns
`GList*`, and the `NULL` it returns when `opendir` fails is the very same
value as the empty list a successful listing of an empty directory produces,
so the failure is not distinguishable from that success. -/
theorem C9_null_ambiguity :
    get_directory_contents none = get_directory_contents (some []) := rfl

/-- Claim C9 (amended): when the directory cannot be opened the function
returns `NULL` — which coincides with the successful listing of an empty
directory; the failure is distinguishable only from listings that contain at
least one real (non-`.`/`..`) entry. -/
theorem C9_open_failure_amended (es : List RawEntry) (e : RawEntry)
    (hmem : e ∈ es) (h1 : e.name ≠ ".") (h2 : e.name ≠ "..") :
    get_directory_contents none = [] ∧
      get_directory_contents (some es) ≠ get_directory_contents none := by
  refine ⟨rfl, ?_⟩
  intro hcontra
  have hm : mkFileInfo e ∈ get_directory_contents (some es) := by
    simp only [get_directory_contents]
    exact List.mem_map.mpr ⟨e, List.mem_filter.mpr ⟨hmem, by simp [h1, h2]⟩, rfl⟩
  rw [hcontra] at hm
  simp [get_directory_contents] at hm

/-- Witness for C9 (amended) at a concrete one-entry directory. -/
theorem C9_witness :
    get_directory_contents none = [] ∧
      get_directory_contents (some [{ name := "x", stat := none }]) ≠
        get_directory_contents none :=
  C9_open_failure_amended [{ name := "x", stat := none }]
    { name := "x", stat := none } (by simp) (by decide) (by decide)

/-! ## Claim C8 -/

/-- Claim C8: `format_size` renders `500 ↦ "500 B"`, `2048 ↦ "2.0 KB"`,
`3145728 ↦ "3.0 MB"`; every byte count below 1024 is rendered as the integer
with unit `B`; every count below 1024² is rendered as a one-decimal KB value
within half a tenth of `n / 1024`; every larger count as a one-decimal MB
value within half a tenth of `n / 1024²` (so never GB); and every directory
entry produced by `get_directory_contents` carries the empty size string,
never `"0 B"`. -/
theorem C8_size_formatting :
    format_size 500 = "500 B" ∧ format_size 2048 = "2.0 KB" ∧
      format_size 3145728 = "3.0 MB" ∧
      (∀ n : Nat, n < 1024 → format_size n = toString n ++ " B") ∧
      (∀ n : Nat, 1024 ≤ n → n < 1024 * 1024 →
        ∃ t : Nat, format_size n = tenths t ++ " KB" ∧
          2 * (1024 * t) ≤ 2 * (10 * n) + 1024 ∧
          2 * (10 * n) ≤ 2 * (1024 * t) + 1024) ∧
      (∀ n : Nat, 1024 * 1024 ≤ n →
        ∃ t : Nat, format_size n = tenths t ++ " MB" ∧
          2 * (1048576 * t) ≤ 2 * (10 * n) + 1048576 ∧
          2 * (10 * n) ≤ 2 * (1048576 * t) + 1048576) ∧
      (∀ (d : Option (List RawEntry)) (fi : FileInfo),
        fi ∈ get_directory_contents d → fi.is_dir = true →
        fi.size_formatted = some "") := by
  refine ⟨by decide, by decide, by decide, ?_, ?_, ?_, ?_⟩
  · intro n h
    simp [format_size, h]
  · intro n h1 h2
    refine ⟨rhe (10 * n) 1024, ?_, ?_, ?_⟩
    · rw [format_size, if_neg (by omega), if_pos h2]
    · exact (rhe_close (10 * n) 1024 (by norm_num)).1
    · exact (rhe_close (10 * n) 1024 (by norm_num)).2
  · intro n h1
    refine ⟨rhe (10 * n) (1024 * 1024), ?_, ?_, ?_⟩
    · rw [format_size, if_neg (by omega), if_neg (by omega)]
    · exact (rhe_close (10 * n) (1024 * 1024) (by norm_num)).1
    · exact (rhe_close (10 * n) (1024 * 1024) (by norm_num)).2
  · intro d fi hmem hdir
    cases d with
    | none => simp [get_directory_contents] at hmem
    | some es =>
        simp only [get_directory_contents] at hmem
        obtain ⟨e, _, rfl⟩ := List.mem_map.mp hmem
        cases hs : e.stat with
        | none => simp [mkFileInfo, hs] at hdir
        | some st =>
            simp only [mkFileInfo, hs] at hdir ⊢
            simp [hdir]

/-- Witness for C8 exercising the byte branch and the directory branch at
concrete inputs. -/
theorem C8_witness :
    format_size 700 = toString 700 ++ " B" ∧
      (mkFileInfo ⟨"d", some ⟨true, 0, "T", "M"⟩⟩).size_formatted = some "" := by
  constructor
  · exact C8_size_formatting.2.2.2.1 700 (by norm_num)
  · exact C8_size_formatting.2.2.2.2.2.2
      (some [⟨"d", some ⟨true, 0, "T", "M"⟩⟩])
      _ (by simp [get_directory_contents, List.mem_filter]) (by decide)

/-! ## Claim C6 -/

/-- Claim C6: exclusive creation.  If an entry of the requested name already
exists in the parent directory, `create_directory_item` (via `mkdir`,
`EEXIST`) and `create_file_item` (via `open` with `O_CREAT | O_EXCL`) both
return failure and leave the directory — in particular the existing entry —
unchanged; and a second identical call after a successful creation always
fails. -/
theorem C6_exclusive_creation :
    (∀ (d : Entries) (name : String) (v : FsNode), lookupE d name = some v →
      create_directory_item d name = (false, d) ∧
        create_file_item d name = (false, d)) ∧
    (∀ (d : Entries) (name : String), lookupE d name = none →
      (create_directory_item (create_directory_item d name).2 name).1 = false ∧
        (create_file_item (create_file_item d name).2 name).1 = false) := by
  constructor
  · intro d name v h
    constructor <;> simp [create_directory_item, create_file_item, h]
  · intro d name h
    constructor <;>
      simp [create_directory_item, create_file_item, h, lookupE_insertE_self]

/-- Witness for C6 at concrete directories. -/
theorem C6_witness :
    (create_directory_item [("a", FsNode.file [])] "a" =
        (false, [("a", FsNode.file [])]) ∧
      create_file_item [("a", FsNode.file [])] "a" =
        (false, [("a", FsNode.file [])])) ∧
      (create_directory_item (create_directory_item [] "d").2 "d").1 = false ∧
      (create_file_item (create_file_item [] "f").2 "f").1 = false :=
  ⟨C6_exclusive_creation.1 [("a", FsNode.file [])] "a" (FsNode.file []) rfl,
    (C6_exclusive_creation.2 [] "d" rfl).1,
    (C6_exclusive_creation.2 [] "f" rfl).2⟩

/-! ## Claim C10 -/

/-- Claim C10 as stated is false on the code: `rename_item` concatenates
`dirname(old_path)` with the caller-supplied `new_name` without validating
it, so a `new_name` of `../c` relocates the entry outside the old parent:
renaming `/a/b` to `../c` yields `/c`, whose parent is not `/a`. -/
theorem C10_escape_counterexample :
    (rename_item ["a", "b"] ["..", "c"]).dropLast ≠ ["a", "b"].dropLast ∧
      rename_item ["a", "b"] ["..", "c"] = ["c"] := by decide

/-- Claim C10 (amended): when `new_name` is a single plain component (no path
separator, not `.` and not `..`) and the old path is a normalised absolute
path, a successful rename leaves the entry inside the same parent directory:
only the base name changes. -/
theorem C10_rename_same_parent_amended (old : List String) (n : String)
    (hold : ∀ c ∈ old, c ≠ "." ∧ c ≠ "..")
    (h1 : n ≠ ".") (h2 : n ≠ "..") :
    rename_item old [n] = old.dropLast ++ [n] ∧
      (rename_item old [n]).dropLast = old.dropLast := by
  have hsub : ∀ c ∈ old.dropLast ++ [n], c ≠ "." ∧ c ≠ ".." := by
    intro c hc
    rcases List.mem_append.mp hc with hc | hc
    · exact hold c (List.dropLast_subset old hc)
    · simp only [List.mem_singleton] at hc
      subst hc
      exact ⟨h1, h2⟩
  have h3 : rename_item old [n] = old.dropLast ++ [n] := by
    unfold rename_item
    exact resolvePath_plain _ hsub
  refine ⟨h3, ?_⟩
  rw [h3]
  simp

/-- Witness for C10 (amended) renaming `/a/b` to the plain name `c`. -/
theorem C10_witness :
    rename_item ["a", "b"] ["c"] = ["a", "b"].dropLast ++ ["c"] ∧
      (rename_item ["a", "b"] ["c"]).dropLast = ["a", "b"].dropLast :=
  C10_rename_same_parent_amended ["a", "b"] "c" (by decide) (by decide) (by decide)

/-! ## Claim C2 -/

/-- Claim C2 as stated is false on the code: `unlink_cb` returns the result
of `remove`, and `nftw` stops the walk as soon as the callback returns
nonzero, so after the removal of `r/a` fails the remaining node `r/b` — a
node of the tree, present in its post-order sequence — is never attempted. -/
theorem C2_abort_counterexample :
    delete_item (fun s => s = "r/a") "r" (.dir [("a", .file), ("b", .file)]) =
        false ∧
      "r/b" ∈ postOrder "r" (.dir [("a", .file), ("b", .file)]) ∧
      "r/b" ∉
        (nftwDel (fun s => s = "r/a") "r"
          (.dir [("a", .file), ("b", .file)])).2 := by decide

/-- Claim C2 (amended): after an individual removal inside `delete_item`
fails, the walk does NOT attempt the remaining nodes — it stops at the first
failed removal (the attempted-removal trace is the post-order sequence
truncated at the first failure); the aggregate result is success if and only
if every individual removal in the tree succeeds. -/
theorem C2_delete_aborts_and_aggregate (fails : String → Bool) (p : String)
    (t : DNode) :
    (delete_item fails p t = true ↔ ∀ q ∈ postOrder p t, fails q = false) ∧
      (nftwDel fails p t).2 = stopAtFirstFail fails (postOrder p t) := by
  obtain ⟨hok, htr⟩ := nftwDel_spec fails p t
  refine ⟨?_, htr⟩
  unfold delete_item
  rw [hok]
  simp [List.all_eq_true]

/-- Witness for C2 (amended): with no removal failing, deleting a concrete
tree succeeds. -/
theorem C2_witness :
    delete_item (fun _ => false) "r" (.dir [("a", .file), ("b", .file)]) =
      true :=
  (C2_delete_aborts_and_aggregate (fun _ => false) "r"
    (.dir [("a", .file), ("b", .file)])).1.mpr (by decide)

/-! ## Claim C7 -/

/-- Claim C7: `delete_item` removes entries in depth-first post-order.  With
no failing removal the attempted sequence is exactly the post-order path
sequence (children fully before their directory); for every removal oracle,
if the directory's own path is ever attempted then the full post-order
sequence of its children was attempted before it — so removal of a non-empty
directory is never attempted; and a symbolic link is removed as a link: the
walk emits exactly the link's own path, independent of the target node, whose
contents are never visited (`FTW_PHYS`). -/
theorem C7_postorder_phys :
    (∀ (p : String) (t : DNode),
      nftwDel (fun _ => false) p t = (true, postOrder p t)) ∧
    (∀ (fails : String → Bool) (p : String) (cs : List (String × DNode)),
      p ∈ (nftwDel fails p (.dir cs)).2 →
        (nftwDel fails p (.dir cs)).2 = postOrderChildren p cs ++ [p]) ∧
    (∀ (fails : String → Bool) (p : String) (target : DNode),
      nftwDel fails p (.symlink target) = (!(fails p), [p])) := by
  refine ⟨?_, ?_, fun _ _ _ => rfl⟩
  · intro p t
    obtain ⟨hok, htr⟩ := nftwDel_spec (fun _ => false) p t
    rcases h : nftwDel (fun _ => false) p t with ⟨ok, tr⟩
    rw [h] at hok htr
    simp only at hok htr
    rw [stopAtFirstFail_all_pass _ _ (fun q _ => rfl)] at htr
    have hok' : ok = true := by
      rw [hok]
      simp
    rw [hok', htr]
  · intro fails p cs hp
    obtain ⟨hok, htr⟩ := nftwDel_spec fails p (.dir cs)
    rw [htr] at hp ⊢
    rw [postOrder] at hp ⊢
    by_cases hall : ∀ q ∈ postOrderChildren p cs, fails q = false
    · rw [stopAtFirstFail_append_pass _ _ _ hall]
      cases hf : fails p <;> simp [stopAtFirstFail, hf]
    · push_neg at hall
      rcases hall with ⟨q, hq, hfq⟩
      have hfq' : fails q = true := by
        cases h : fails q
        · exact absurd h hfq
        · rfl
      rw [stopAtFirstFail_append_fail _ _ _ ⟨q, hq, hfq'⟩] at hp
      have hmem := mem_stopAtFirstFail _ _ _ hp
      have hlt := length_lt_of_mem_postOrderChildren p cs p hmem
      omega

/-- Witness for C7 at concrete trees, including a symbolic link whose target
is a directory that is never entered. -/
theorem C7_witness :
    nftwDel (fun _ => false) "r" (.dir [("a", .file)]) =
        (true, postOrder "r" (.dir [("a", .file)])) ∧
      (nftwDel (fun _ => false) "r" (.dir [("a", .file)])).2 =
        postOrderChildren "r" [("a", .file)] ++ ["r"] ∧
      nftwDel (fun _ => false) "p" (.symlink (.dir [("big", .file)])) =
        (!(false : Bool), ["p"]) :=
  ⟨C7_postorder_phys.1 "r" (.dir [("a", .file)]),
    C7_postorder_phys.2.1 (fun _ => false) "r" [("a", .file)] (by decide),
    C7_postorder_phys.2.2 (fun _ => false) "p" (.dir [("big", .file)])⟩

/-! ## Claim C3 -/

/-- Claim C3 as stated is false on the code: `copy_item` never checks the
return value of `mkdir(dest_path, st.st_mode)` (backend.c line 240).  Here
the destination already holds a regular file named `s`, so the creation of
the top-level destination directory fails, yet copying the empty source
directory `s` reports success. -/
theorem C3_mkdir_failure_ignored :
    (copy_item "s" (.dir []) [("s", FsNode.file [1])]).1 = true ∧
      lookupE [("s", FsNode.file [1])] "s" = some (FsNode.file [1]) :=
  ⟨rfl, rfl⟩

/-- Claim C3 (amended): `copy_item` on a directory source returns success iff
every recursive child copy succeeded — the outcome of the top-level `mkdir`
is ignored (in particular, when the destination name is already a directory
the children are merged into it and the result is still only the children's
conjunction); and when one child copy fails every remaining sibling is still
attempted (the loop records one attempt per child, in order, and the
aggregate is the conjunction of exactly those recorded results). -/
theorem C3_copy_aggregate_amended :
    (∀ (cs : List (String × FsNode)) (dest : Entries),
      ((copyChildren cs dest).2.2).map Prod.fst = cs.map Prod.fst) ∧
    (∀ (cs : List (String × FsNode)) (dest : Entries),
      (copyChildren cs dest).1 =
        (((copyChildren cs dest).2.2).map Prod.snd).all (fun b => b)) ∧
    (∀ (base : String) (cs : List (String × FsNode)) (dest sub : Entries),
      lookupE dest base = some (.dir sub) →
      (copy_item base (.dir cs) dest).1 = (copyChildren cs sub).1) := by
  refine ⟨copyChildren_names, copyChildren_result, ?_⟩
  intro base cs dest sub h
  rcases hc : copyChildren cs sub with ⟨ok, sub2, tr⟩
  simp [copy_item, h, hc]

/-- Witness for C3 (amended) at a concrete merge into a pre-existing
destination directory. -/
theorem C3_witness :
    ((copyChildren [("y", FsNode.file [2])] [("x", FsNode.file [])]).2.2).map
        Prod.fst = [("y", FsNode.file [2])].map Prod.fst ∧
      (copy_item "d" (.dir [("y", FsNode.file [2])])
          [("d", FsNode.dir [("x", FsNode.file [])])]).1 =
        (copyChildren [("y", FsNode.file [2])] [("x", FsNode.file [])]).1 :=
  ⟨C3_copy_aggregate_amended.1 [("y", FsNode.file [2])] [("x", FsNode.file [])],
    C3_copy_aggregate_amended.2.2 "d" [("y", FsNode.file [2])]
      [("d", FsNode.dir [("x", FsNode.file [])])] [("x", FsNode.file [])] rfl⟩

/-! ## Claim C5 -/

/-- Claim C5 as stated is false on the code: copying the empty source
directory `s` into a destination that already holds a regular file named `s`
reports success (the failed `mkdir` is ignored), yet the destination entry at
the source's name is still that regular file — the copied tree is neither
byte-identical nor shape-identical to the directory source. -/
theorem C5_roundtrip_counterexample :
    (copy_item "s" (.dir []) [("s", FsNode.file [1])]).1 = true ∧
      lookupE (copy_item "s" (.dir []) [("s", FsNode.file [1])]).2 "s" =
        some (FsNode.file [1]) :=
  ⟨rfl, rfl⟩

/-- Claim C5 (amended): when the destination directory has no existing entry
with the source's base name (so the top-level creation succeeds) and the
source tree is well-formed (distinct child names in every directory, as
`readdir` guarantees), `copy_item` succeeds and the destination afterwards
holds, under the source's base name, a tree equal to the source — identical
byte content at every file and identical file/directory shape at every
relative path. -/
theorem C5_roundtrip_amended (base : String) (src : FsNode) (dest : Entries)
    (hwf : wfNode src) (hfresh : lookupE dest base = none) :
    copy_item base src dest = (true, dest ++ [(base, src)]) ∧
      lookupE (copy_item base src dest).2 base = some src := by
  have h := copy_item_fresh base src dest hwf hfresh
  refine ⟨h, ?_⟩
  rw [h]
  show lookupE (dest ++ [(base, src)]) base = some src
  rw [← insertE_of_lookup_none dest base src hfresh]
  exact lookupE_insertE_self dest base src

/-- Witness for C5 (amended) copying a one-file directory into an empty
destination. -/
theorem C5_witness :
    copy_item "s" (.dir [("a", FsNode.file [7])]) [] =
        (true, [] ++ [("s", FsNode.dir [("a", FsNode.file [7])])]) ∧
      lookupE (copy_item "s" (.dir [("a", FsNode.file [7])]) []).2 "s" =
        some (FsNode.dir [("a", FsNode.file [7])]) :=
  C5_roundtrip_amended "s" (.dir [("a", FsNode.file [7])]) []
    (by simp [wfNode, wfChildren]) rfl

/-! ## Claim C4 -/

/-- Claim C4: archive path mapping.  The entry names emitted by the recursive
walk do not depend on the host filesystem path of the source (so no host
segment above the source can leak into them); for a directory source every
entry is `topLevelName/relativePathFromSource` — the top-level name entry
`base/` followed by the source's relative paths prefixed with `base/`; a file
source yields the single entry named by its base name; and the reference tree
`root/(a.txt, sub/b.txt)` produces exactly the entries
`root/, root/a.txt, root/sub/, root/sub/b.txt`. -/
theorem C4_zip_path_mapping :
    (∀ (fs1 fs2 zp : String) (cs : List (String × FsNode)),
      add_to_zip_recursive fs1 zp cs = add_to_zip_recursive fs2 zp cs) ∧
    (∀ (srcPath base : String) (cs : List (String × FsNode)),
      zip_item srcPath base (.dir cs) =
        (base ++ "/") ::
          (relEntriesChildren cs).map (fun r => (base ++ "/") ++ r)) ∧
    (∀ (srcPath base : String) (content : List Nat),
      zip_item srcPath base (.file content) = [base]) ∧
    zip_item "/home/user/root" "root"
        (.dir [("a.txt", .file [1]), ("sub", .dir [("b.txt", .file [2])])]) =
      ["root/", "root/a.txt", "root/sub/", "root/sub/b.txt"] := by
  refine ⟨?_, ?_, fun _ _ _ => rfl, by decide⟩
  · intro fs1 fs2 zp cs
    rw [add_to_zip_recursive_eq fs1 zp cs, add_to_zip_recursive_eq fs2 zp cs]
  · intro srcPath base cs
    simp only [zip_item]
    rw [add_to_zip_recursive_eq srcPath (base ++ "/") cs]

end FMS
